import Mathlib

/-!
Verification of the taskflow excerpt: shallow embeddings of
`taskflow/utils/async_utils.py`, `taskflow/formatters.py`,
`taskflow/engines/worker_based/worker.py`, `taskflow/test.py` and the
`persistence_example.py` scenario, with theorems settling the frozen claims.
-/

namespace Taskflow

/-! ## Futures and `wait_for_any` (taskflow/utils/async_utils.py)

A `concurrent.futures` future is modelled by its identity, its `_state`
field and its `_waiters` list (waiters are identified by fresh ids, since
Python compares waiter objects by identity in `list.remove`).  The period
spent blocked in `waiter.event.wait(timeout)` is modelled by an `adv`
function giving the state other threads may have moved each future to. -/

inductive FState
  | pending
  | running
  | cancelled
  | cancelledAndNotified
  | finished
  deriving DecidableEq, Repr

/-- `DONE_STATES = frozenset([CANCELLED_AND_NOTIFIED, FINISHED])`. -/
def DONE_STATES : List FState := [FState.cancelledAndNotified, FState.finished]

structure Future where
  fid : Nat
  state : FState
  waiters : List Nat
  deriving DecidableEq, Repr

/-- `_partition_futures(fs)`: splits `fs` into done and not-done lists,
preserving the order of traversal. -/
def _partition_futures : List Future → List Future × List Future
  | [] => ([], [])
  | f :: rest =>
    let (done, not_done) := _partition_futures rest
    if f.state ∈ DONE_STATES then (f :: done, not_done) else (done, f :: not_done)

/-- `f._waiters.append(waiter)`. -/
def addWaiter (w : Nat) (f : Future) : Future :=
  { f with waiters := f.waiters ++ [w] }

/-- `f._waiters.remove(waiter)` (removes the first occurrence). -/
def removeWaiter (w : Nat) (f : Future) : Future :=
  { f with waiters := f.waiters.erase w }

/-- State changes performed by other threads while `wait_for_any` is blocked
in `waiter.event.wait(timeout)` (completions only touch `_state`, never the
`_waiters` list of a different waiter). -/
def advanceFuture (adv : Nat → FState → FState) (f : Future) : Future :=
  { f with state := adv f.fid f.state }

structure WaitOutcome where
  done : List Future
  not_done : List Future
  finalFs : List Future
  blocked : Bool
  deriving Repr

/-- `wait_for_any(fs, timeout)`: partitions; if something is done already it
returns at once, otherwise it registers a fresh waiter `w` on every future,
blocks (modelled by `adv`), unregisters `w` from every future and partitions
again.  `finalFs` is the list of futures after the call, `blocked` records
whether the event was waited on. -/
def wait_for_any (fs : List Future) (w : Nat) (adv : Nat → FState → FState) :
    WaitOutcome :=
  let pr := _partition_futures fs
  if pr.1.isEmpty then
    let fs3 := ((fs.map (addWaiter w)).map (advanceFuture adv)).map (removeWaiter w)
    let pr2 := _partition_futures fs3
    ⟨pr2.1, pr2.2, fs3, true⟩
  else
    ⟨pr.1, pr.2, fs, false⟩

theorem partition_futures_eq_filter (fs : List Future) :
    (_partition_futures fs).1 = fs.filter (fun f => decide (f.state ∈ DONE_STATES))
      ∧ (_partition_futures fs).2 = fs.filter (fun f => !decide (f.state ∈ DONE_STATES)) := by
  induction fs with
  | nil => simp [_partition_futures]
  | cons f rest ih =>
    by_cases h : f.state ∈ DONE_STATES <;>
      simp [_partition_futures, h, ih.1, ih.2, List.filter]

theorem partition_futures_perm (fs : List Future) :
    ((_partition_futures fs).1 ++ (_partition_futures fs).2).Perm fs := by
  rw [(partition_futures_eq_filter fs).1, (partition_futures_eq_filter fs).2]
  exact List.filter_append_perm _ fs

/-- C1: `wait_for_any` partitions `fs` exactly: done plus not-done is a
permutation of `fs`, done holds precisely the futures whose state is
`CANCELLED_AND_NOTIFIED` or `FINISHED` at partition time, and when some
future of `fs` is already done the call returns immediately (never blocking
on the waiter event) with that future in the done list. -/
theorem wait_for_any_partition_early (fs : List Future) (w : Nat)
    (adv : Nat → FState → FState) (f : Future)
    (hf : f ∈ fs) (hdone : f.state ∈ DONE_STATES) :
    ((_partition_futures fs).1 ++ (_partition_futures fs).2).Perm fs
    ∧ (_partition_futures fs).1
        = fs.filter (fun g => decide (g.state ∈ DONE_STATES))
    ∧ (wait_for_any fs w adv).blocked = false
    ∧ f ∈ (wait_for_any fs w adv).done := by
  have hmem : f ∈ (_partition_futures fs).1 := by
    rw [(partition_futures_eq_filter fs).1]
    simp [List.mem_filter, hf, hdone]
  have hne : (_partition_futures fs).1.isEmpty = false := by
    cases h : (_partition_futures fs).1 with
    | nil => rw [h] at hmem; cases hmem
    | cons a l => simp
  refine ⟨partition_futures_perm fs, (partition_futures_eq_filter fs).1, ?_, ?_⟩
  · simp [wait_for_any, hne]
  · simpa [wait_for_any, hne] using hmem

theorem wait_for_any_partition_early_witness :
    ((_partition_futures [⟨0, FState.finished, []⟩]).1
        ++ (_partition_futures [⟨0, FState.finished, []⟩]).2).Perm
          [⟨0, FState.finished, []⟩]
    ∧ (_partition_futures [⟨0, FState.finished, []⟩]).1
        = [⟨0, FState.finished, []⟩].filter
            (fun g => decide (g.state ∈ DONE_STATES))
    ∧ (wait_for_any [⟨0, FState.finished, []⟩] 0 (fun _ s => s)).blocked = false
    ∧ (⟨0, FState.finished, []⟩ : Future)
        ∈ (wait_for_any [⟨0, FState.finished, []⟩] 0 (fun _ s => s)).done :=
  wait_for_any_partition_early [⟨0, FState.finished, []⟩] 0 (fun _ s => s)
    ⟨0, FState.finished, []⟩ (by simp) (by simp [DONE_STATES])

lemma erase_append_singleton (w : Nat) (ws : List Nat) (h : w ∉ ws) :
    (ws ++ [w]).erase w = ws := by
  induction ws with
  | nil => simp
  | cons x xs ih =>
    have hx : ¬ (x == w) = true := by
      simp only [beq_iff_eq]
      intro e
      exact h (by simp [e])
    have hxs : w ∉ xs := fun e => h (by simp [e])
    simp [List.erase_cons, hx, ih hxs]

lemma waiter_roundtrip (w : Nat) (adv : Nat → FState → FState)
    (fs : List Future) (hfresh : ∀ f ∈ fs, w ∉ f.waiters) :
    (((fs.map (addWaiter w)).map (advanceFuture adv)).map
        (removeWaiter w)).map Future.waiters = fs.map Future.waiters := by
  induction fs with
  | nil => rfl
  | cons f rest ih =>
    have h1 : w ∉ f.waiters := hfresh f (by simp)
    have h2 := ih (fun g hg => hfresh g (by simp [hg]))
    simp only [List.map_cons] at h2 ⊢
    rw [h2]
    simp [removeWaiter, advanceFuture, addWaiter,
      erase_append_singleton w f.waiters h1]

/-- C6: when `wait_for_any` finds no future already done and therefore
blocks on the waiter event, the temporary waiter it appended to every
future has been removed again by the time it returns: every future's
waiter list after the call equals its waiter list before it. -/
theorem wait_for_any_no_waiter_leak (fs : List Future) (w : Nat)
    (adv : Nat → FState → FState)
    (hfresh : ∀ f ∈ fs, w ∉ f.waiters)
    (hnone : (_partition_futures fs).1 = []) :
    (wait_for_any fs w adv).blocked = true
    ∧ (wait_for_any fs w adv).finalFs.map Future.waiters
        = fs.map Future.waiters := by
  have hemp : (_partition_futures fs).1.isEmpty = true := by rw [hnone]; rfl
  refine ⟨by simp [wait_for_any, hemp], ?_⟩
  simpa [wait_for_any, hemp] using waiter_roundtrip w adv fs hfresh

theorem wait_for_any_no_waiter_leak_witness :
    (wait_for_any [⟨0, FState.pending, []⟩] 0 (fun _ s => s)).blocked = true
    ∧ (wait_for_any [⟨0, FState.pending, []⟩] 0
        (fun _ s => s)).finalFs.map Future.waiters
          = [Future.mk 0 FState.pending []].map Future.waiters :=
  wait_for_any_no_waiter_leak [⟨0, FState.pending, []⟩] 0 (fun _ s => s)
    (by intro f hf; simp at hf; subst hf; simp) (by rfl)

/-! ## `_cached_get` (taskflow/formatters.py)

The two-level dict `cache[cache_key][atom_name]` is modelled as an
association list keyed by the pair `(cache_key, atom_name)` (the callers in
`FailureFormatter.format` pre-create every `cache_key` bucket, so only the
inner `atom_name` lookup can miss).  A Python exception is a `PyExc`; the
fetch function is forced with `()` only on a cache miss, mirroring the lazy
call `fetch_func(*args, **kwargs)`. -/

inductive PyExc
  | storageFailure
  | notFound
  | other (code : Nat)
  deriving DecidableEq, Repr

/-- The exception classes caught by `except (exc.StorageFailure, exc.NotFound)`. -/
def catchable : PyExc → Bool
  | PyExc.storageFailure => true
  | PyExc.notFound => true
  | PyExc.other _ => false

def Cache (V : Type) : Type := List ((String × String) × (Option V × Bool))

def cacheLookup {V : Type} : Cache V → String → String → Option (Option V × Bool)
  | [], _, _ => none
  | (k, e) :: rest, ck, an => if k = (ck, an) then some e else cacheLookup rest ck an

def cacheInsert {V : Type} (c : Cache V) (ck an : String)
    (entry : Option V × Bool) : Cache V :=
  ((ck, an), entry) :: c

/-- `_cached_get(cache, cache_key, atom_name, fetch_func, ...)`: returns the
`(value, value_found)` pair together with the updated cache, or propagates
an uncaught exception raised by the fetch function. -/
def _cached_get {V : Type} (cache : Cache V) (ck an : String)
    (fetch : Unit → Except PyExc V) :
    Except PyExc ((Option V × Bool) × Cache V) :=
  match cacheLookup cache ck an with
  | some (v, vf) => Except.ok ((v, vf), cache)
  | none =>
    match fetch () with
    | Except.ok v => Except.ok ((some v, true), cacheInsert cache ck an (some v, true))
    | Except.error e =>
      if catchable e then
        Except.ok ((none, false), cacheInsert cache ck an (none, false))
      else
        Except.error e

lemma cacheLookup_insert {V : Type} (c : Cache V) (ck an : String)
    (entry : Option V × Bool) :
    cacheLookup (cacheInsert c ck an entry) ck an = some entry := by
  simp [cacheInsert, cacheLookup]

/-- C2: on a cache miss, a fetch that raises `StorageFailure` or `NotFound`
makes `_cached_get` return `(None, False)` (and cache that negative result)
rather than propagate; a fetch raising any other exception propagates it. -/
theorem cached_get_fetch_error {V : Type} (cache : Cache V) (ck an : String)
    (e : PyExc) (hmiss : cacheLookup cache ck an = none) :
    _cached_get cache ck an (fun _ => Except.error e)
      = if catchable e then
          Except.ok ((none, false), cacheInsert cache ck an (none, false))
        else
          Except.error e := by
  simp [_cached_get, hmiss]

theorem cached_get_fetch_error_witness :
    (_cached_get ([] : Cache Nat) "requires" "a"
        (fun _ => Except.error PyExc.storageFailure)
      = if catchable PyExc.storageFailure then
          Except.ok ((none, false),
            cacheInsert ([] : Cache Nat) "requires" "a" (none, false))
        else
          Except.error PyExc.storageFailure)
    ∧ (_cached_get ([] : Cache Nat) "requires" "a"
        (fun _ => Except.error (PyExc.other 7))
      = if catchable (PyExc.other 7) then
          Except.ok ((none, false),
            cacheInsert ([] : Cache Nat) "requires" "a" (none, false))
        else
          Except.error (PyExc.other 7)) :=
  ⟨cached_get_fetch_error ([] : Cache Nat) "requires" "a" PyExc.storageFailure rfl,
   cached_get_fetch_error ([] : Cache Nat) "requires" "a" (PyExc.other 7) rfl⟩

/-- C8: `_cached_get` memoizes per `(cache_key, atom_name)`: any successful
call stores its `(value, value_found)` pair in the cache it returns, and
every later call with that cache and the same keys returns the identical
pair and cache without ever forcing its fetch function — including negative
results, where `(None, False)` was cached after a caught fetch failure. -/
theorem cached_get_memoizes {V : Type} (cache : Cache V) (ck an : String)
    (fetch : Unit → Except PyExc V) (res : (Option V × Bool) × Cache V)
    (h : _cached_get cache ck an fetch = Except.ok res) :
    cacheLookup res.2 ck an = some res.1
    ∧ ∀ fetch2 : Unit → Except PyExc V,
        _cached_get res.2 ck an fetch2 = Except.ok (res.1, res.2) := by
  have hl : cacheLookup res.2 ck an = some res.1 := by
    revert h
    unfold _cached_get
    cases hc : cacheLookup cache ck an with
    | some p =>
      intro h
      obtain ⟨v, vf⟩ := p
      simp only at h
      cases h
      simpa using hc
    | none =>
      cases hf : fetch () with
      | ok v =>
        intro h
        simp only at h
        cases h
        simp [cacheLookup_insert]
      | error e =>
        by_cases hcat : catchable e
        · intro h
          simp only [hcat, if_true] at h
          cases h
          simp [cacheLookup_insert]
        · intro h
          simp [hcat] at h
  refine ⟨hl, fun fetch2 => ?_⟩
  unfold _cached_get
  rw [hl]

theorem cached_get_memoizes_witness :
    cacheLookup (cacheInsert ([] : Cache Nat) "states" "a" (none, false))
        "states" "a" = some (none, false)
    ∧ ∀ fetch2 : Unit → Except PyExc Nat,
        _cached_get (cacheInsert ([] : Cache Nat) "states" "a" (none, false))
            "states" "a" fetch2
          = Except.ok ((none, false),
              cacheInsert ([] : Cache Nat) "states" "a" (none, false)) :=
  cached_get_memoizes ([] : Cache Nat) "states" "a"
    (fun _ => Except.error PyExc.notFound)
    ((none, false), cacheInsert ([] : Cache Nat) "states" "a" (none, false)) rfl

/-! ## `assertIsSuperAndSubsequence` (taskflow/test.py)

The assertion walks `sub_seq` left to right keeping a `current_tail` of the
super sequence; `current_tail.index(sub_elem)` plus the slice
`current_tail[super_index + 1:]` is `removeThrough`: drop everything up to
and including the first occurrence of the element, or fail (`ValueError`)
when it does not occur.  The assertion succeeds iff the walk never fails. -/

def removeThrough {α : Type} [DecidableEq α] (e : α) : List α → Option (List α)
  | [] => none
  | x :: xs => if x = e then some xs else removeThrough e xs

def assertIsSuperAndSubsequence {α : Type} [DecidableEq α] :
    List α → List α → Bool
  | _, [] => true
  | sup, e :: rest =>
    match removeThrough e sup with
    | none => false
    | some tl => assertIsSuperAndSubsequence tl rest

lemma removeThrough_sublist {α : Type} [DecidableEq α] (e : α) :
    ∀ (sup t : List α), removeThrough e sup = some t → (e :: t).Sublist sup := by
  intro sup
  induction sup with
  | nil => intro t h; simp [removeThrough] at h
  | cons x xs ih =>
    intro t h
    by_cases hx : x = e
    · subst hx
      simp [removeThrough] at h
      subst h
      exact List.Sublist.refl _
    · simp [removeThrough, hx] at h
      exact (ih t h).cons x

lemma sublist_removeThrough {α : Type} [DecidableEq α] (e : α)
    (rest : List α) :
    ∀ sup : List α, (e :: rest).Sublist sup →
      ∃ t, removeThrough e sup = some t ∧ rest.Sublist t := by
  intro sup
  induction sup with
  | nil => intro h; simp at h
  | cons x xs ih =>
    intro h
    by_cases hx : x = e
    · subst hx
      refine ⟨xs, by simp [removeThrough], ?_⟩
      cases h with
      | cons _ h2 => exact ((List.Sublist.refl rest).cons x).trans h2
      | cons₂ _ h2 => exact h2
    · have hxs : (e :: rest).Sublist xs := by
        cases h with
        | cons _ h2 => exact h2
        | cons₂ _ h2 => exact absurd rfl hx
      obtain ⟨t, h1, h2⟩ := ih hxs
      exact ⟨t, by simp [removeThrough, hx, h1], h2⟩

lemma greedy_complete {α : Type} [DecidableEq α] :
    ∀ (sub sup : List α), sub.Sublist sup →
      assertIsSuperAndSubsequence sup sub = true := by
  intro sub
  induction sub with
  | nil => intro sup h; simp [assertIsSuperAndSubsequence]
  | cons e rest ih =>
    intro sup h
    obtain ⟨t, h1, h2⟩ := sublist_removeThrough e rest sup h
    simp [assertIsSuperAndSubsequence, h1, ih t h2]

lemma greedy_sound {α : Type} [DecidableEq α] :
    ∀ (sub sup : List α), assertIsSuperAndSubsequence sup sub = true →
      sub.Sublist sup := by
  intro sub
  induction sub with
  | nil => intro sup h; exact List.nil_sublist sup
  | cons e rest ih =>
    intro sup h
    unfold assertIsSuperAndSubsequence at h
    cases ht : removeThrough e sup with
    | none => rw [ht] at h; simp at h
    | some t =>
      rw [ht] at h
      exact (List.Sublist.cons₂ e (ih t h)).trans
        (removeThrough_sublist e sup t ht)

/-- C10: the greedy left-to-right matching of `assertIsSuperAndSubsequence`
(always taking the earliest occurrence of each element in the remaining
tail) succeeds exactly when `sub` is a (not necessarily contiguous)
subsequence of `sup`, i.e. some order-preserving embedding exists. -/
theorem assertIsSuperAndSubsequence_iff_sublist {α : Type} [DecidableEq α]
    (sup sub : List α) :
    assertIsSuperAndSubsequence sup sub = true ↔ sub.Sublist sup :=
  ⟨greedy_sound sub sup, greedy_complete sub sup⟩

/-! ## `_fetch_predecessor_tree` (taskflow/formatters.py)

The execution graph is modelled by its `predecessors_iter` view: a function
from an atom to the list of its direct predecessors.  The while-loop keeps a
stack of pending atoms (`stack.pop()` takes the last element, so with the
head of the list as top of stack, pushing a pred list appends its reverse),
a `seen` set (modelled as an insertion-ordered duplicate-free list, so
`len(seen)` is its length) and — since every stack entry `(child, pred)`
has just had a `tree.Node(pred)` added to the tree — the list `pushed` of
items of all non-root tree nodes created so far.  The loop is given fuel;
`none` means the fuel ran out before the stack emptied. -/

structure PGraph (α : Type) where
  preds : α → List α

/-- `x` is a (strict) transitive predecessor of `a`: some nonempty
predecessor path leads from `a` back to `x`; equivalently `a` is reachable
from `x` in the execution graph. -/
inductive TransPred {α : Type} (g : PGraph α) (a : α) : α → Prop
  | base {p : α} : p ∈ g.preds a → TransPred g a p
  | step {p q : α} : TransPred g a q → p ∈ g.preds q → TransPred g a p

def insertSeen {α : Type} [DecidableEq α] (s : List α) (x : α) : List α :=
  if x ∈ s then s else s ++ [x]

/-- One `while stack:` loop of `_fetch_predecessor_tree`, with fuel. -/
def fetchLoop {α : Type} [DecidableEq α] (g : PGraph α) :
    Nat → List α → List α → List α → Option (List α × List α)
  | 0, _, _, _ => none
  | _ + 1, [], seen, pushed => some (seen, pushed)
  | fuel + 1, node :: rest, seen, pushed =>
    let ps := g.preds node
    fetchLoop g fuel (ps.reverse ++ rest) (ps.foldl insertSeen seen) (pushed ++ ps)

/-- `_fetch_predecessor_tree(graph, atom)`: returns `(len(seen), root)`;
the tree is represented by its root item (always `atom`) together with the
items of all non-root nodes, in creation order. -/
def _fetch_predecessor_tree {α : Type} [DecidableEq α] (g : PGraph α)
    (fuel : Nat) (atom : α) : Option (Nat × α × List α) :=
  match fetchLoop g fuel [atom] [] [] with
  | some (seen, pushed) => some (seen.length, atom, pushed)
  | none => none

lemma mem_insertSeen {α : Type} [DecidableEq α] (s : List α) (x y : α) :
    y ∈ insertSeen s x ↔ y ∈ s ∨ y = x := by
  unfold insertSeen
  by_cases h : x ∈ s
  · simp only [if_pos h]
    constructor
    · exact Or.inl
    · rintro (hy | rfl)
      · exact hy
      · exact h
  · simp [if_neg h]

lemma nodup_insertSeen {α : Type} [DecidableEq α] (s : List α) (x : α)
    (h : s.Nodup) : (insertSeen s x).Nodup := by
  unfold insertSeen
  by_cases hx : x ∈ s
  · simpa [if_pos hx] using h
  · rw [if_neg hx]
    refine h.append (List.nodup_singleton x) ?_
    intro a ha hb
    simp only [List.mem_singleton] at hb
    subst hb
    exact hx ha

lemma mem_foldl_insertSeen {α : Type} [DecidableEq α] (ps : List α) :
    ∀ (s : List α) (y : α), y ∈ ps.foldl insertSeen s ↔ y ∈ s ∨ y ∈ ps := by
  induction ps with
  | nil => intro s y; simp
  | cons p ps ih =>
    intro s y
    simp only [List.foldl_cons, ih, mem_insertSeen, List.mem_cons]
    tauto

lemma nodup_foldl_insertSeen {α : Type} [DecidableEq α] (ps : List α) :
    ∀ s : List α, s.Nodup → (ps.foldl insertSeen s).Nodup := by
  induction ps with
  | nil => intro s h; exact h
  | cons p ps ih => intro s h; exact ih _ (nodup_insertSeen s p h)

/-- A strict transitive predecessor of `n` is a direct predecessor of `n`
or lies below one of them. -/
lemma transPred_shift {α : Type} (g : PGraph α) (n x : α)
    (h : TransPred g n x) :
    ∃ p ∈ g.preds n, x = p ∨ TransPred g p x := by
  induction h with
  | base hp => exact ⟨_, hp, Or.inl rfl⟩
  | step _ hq ih =>
    obtain ⟨r, hr, hcase⟩ := ih
    cases hcase with
    | inl heq => exact ⟨r, hr, Or.inr (TransPred.base (heq ▸ hq))⟩
    | inr hrr => exact ⟨r, hr, Or.inr (TransPred.step hrr hq)⟩

lemma transPred_rank {α : Type} (g : PGraph α) (rank : α → Nat)
    (hrank : ∀ x p, p ∈ g.preds x → rank p < rank x) (a x : α)
    (h : TransPred g a x) : rank x < rank a := by
  induction h with
  | base hp => exact hrank a _ hp
  | step _ hq ih => exact lt_trans (hrank _ _ hq) ih

lemma fetchLoop_invariant {α : Type} [DecidableEq α] (g : PGraph α)
    (a : α) (rank : α → Nat)
    (hrank : ∀ x p, p ∈ g.preds x → rank p < rank x) :
    ∀ (fuel : Nat) (stack seen pushed seenF pushedF : List α),
      fetchLoop g fuel stack seen pushed = some (seenF, pushedF) →
      (∀ x ∈ stack, x = a ∨ TransPred g a x) →
      (∀ x ∈ seen, TransPred g a x) →
      (∀ y ∈ stack, y = a ∨ y ∈ seen) →
      (∀ x, TransPred g a x →
        x ∈ seen ∨ ∃ y ∈ stack, x = y ∨ TransPred g y x) →
      (∀ x, x ∈ seen ↔ x ∈ pushed) →
      seen.Nodup →
      (∀ x ∈ seenF, TransPred g a x) ∧ (∀ x, TransPred g a x → x ∈ seenF)
        ∧ (∀ x, x ∈ seenF ↔ x ∈ pushedF) ∧ seenF.Nodup := by
  intro fuel
  induction fuel with
  | zero =>
    intro stack seen pushed seenF pushedF hrun
    simp [fetchLoop] at hrun
  | succ f ih =>
    intro stack seen pushed seenF pushedF hrun hstack hseen hcover hcomplete hpush hnd
    cases stack with
    | nil =>
      simp only [fetchLoop, Option.some.injEq, Prod.mk.injEq] at hrun
      obtain ⟨rfl, rfl⟩ := hrun
      refine ⟨hseen, ?_, hpush, hnd⟩
      intro x hx
      rcases hcomplete x hx with h | ⟨y, hy, _⟩
      · exact h
      · cases hy
    | cons n rest =>
      simp only [fetchLoop] at hrun
      have hn : n = a ∨ TransPred g a n := hstack n (by simp)
      have hps : ∀ p ∈ g.preds n, TransPred g a p := by
        intro p hp
        rcases hn with rfl | htp
        · exact TransPred.base hp
        · exact TransPred.step htp hp
      refine ih _ _ _ _ _ hrun ?_ ?_ ?_ ?_ ?_ ?_
      · intro x hx
        rw [List.mem_append, List.mem_reverse] at hx
        rcases hx with hx | hx
        · exact Or.inr (hps x hx)
        · exact hstack x (by simp [hx])
      · intro x hx
        rw [mem_foldl_insertSeen] at hx
        rcases hx with hx | hx
        · exact hseen x hx
        · exact hps x hx
      · intro y hy
        rw [List.mem_append, List.mem_reverse] at hy
        rcases hy with hy | hy
        · exact Or.inr ((mem_foldl_insertSeen _ _ _).2 (Or.inr hy))
        · rcases hcover y (by simp [hy]) with h | h
          · exact Or.inl h
          · exact Or.inr ((mem_foldl_insertSeen _ _ _).2 (Or.inl h))
      · intro x hx
        rcases hcomplete x hx with h | ⟨y, hy, hcase⟩
        · exact Or.inl ((mem_foldl_insertSeen _ _ _).2 (Or.inl h))
        · rw [List.mem_cons] at hy
          rcases hy with hyn | hy
          · rcases hcase with hxy | htp
            · rcases hcover y (by rw [hyn]; simp) with hya | hyseen
              · exfalso
                rw [hxy, hya] at hx
                exact absurd (transPred_rank g rank hrank a a hx) (lt_irrefl _)
              · refine Or.inl ((mem_foldl_insertSeen _ _ _).2 (Or.inl ?_))
                rw [hxy]
                exact hyseen
            · obtain ⟨p, hp, hpc⟩ := transPred_shift g y x htp
              rw [hyn] at hp
              refine Or.inr ⟨p, ?_, hpc⟩
              rw [List.mem_append, List.mem_reverse]
              exact Or.inl hp
          · exact Or.inr ⟨y, by rw [List.mem_append]; exact Or.inr hy, hcase⟩
      · intro x
        rw [mem_foldl_insertSeen, List.mem_append, hpush x]
      · exact nodup_foldl_insertSeen _ _ hnd

/-- C5: whenever the predecessor-tree walk completes on an acyclic graph
(acyclicity witnessed by a topological rank), it returns the atom itself as
the root item, a count equal to the number of distinct transitive
predecessors of the atom (the atom itself, never a transitive predecessor
of itself, excluded), and a tree containing every transitive predecessor. -/
theorem fetch_predecessor_tree_correct {α : Type} [DecidableEq α]
    (g : PGraph α) (rank : α → Nat)
    (hrank : ∀ x p, p ∈ g.preds x → rank p < rank x)
    (fuel : Nat) (a : α) (count : Nat) (root : α) (items : List α)
    (hres : _fetch_predecessor_tree g fuel a = some (count, root, items)) :
    root = a
    ∧ (∃ l : List α, l.Nodup ∧ (∀ x, x ∈ l ↔ TransPred g a x)
        ∧ count = l.length)
    ∧ (∀ x, TransPred g a x → x ∈ items)
    ∧ ¬ TransPred g a a := by
  unfold _fetch_predecessor_tree at hres
  cases hrun : fetchLoop g fuel [a] [] [] with
  | none => rw [hrun] at hres; cases hres
  | some out =>
    obtain ⟨seenF, pushedF⟩ := out
    rw [hrun] at hres
    simp only [Option.some.injEq, Prod.mk.injEq] at hres
    obtain ⟨rfl, rfl, rfl⟩ := hres
    have hinv := fetchLoop_invariant g a rank hrank fuel [a] [] [] seenF
      pushedF hrun
      (by intro x hx; simp at hx; exact Or.inl hx)
      (by intro x hx; cases hx)
      (by intro y hy; simp at hy; exact Or.inl hy)
      (by intro x hx; exact Or.inr ⟨a, by simp, Or.inr hx⟩)
      (by intro x; simp)
      List.nodup_nil
    obtain ⟨hsound, hcompl, hpp, hnd⟩ := hinv
    refine ⟨rfl, ⟨seenF, hnd, fun x => ⟨hsound x, hcompl x⟩, rfl⟩, ?_, ?_⟩
    · intro x hx
      exact (hpp x).1 (hcompl x hx)
    · intro hx
      exact absurd (transPred_rank g rank hrank a a hx) (lt_irrefl _)

/-- A small concrete acyclic execution graph: atom 2 has predecessors 0 and
1, atom 1 has predecessor 0 (a diamond-free DAG with a shared node). -/
def gW : PGraph Nat :=
  ⟨fun n => if n = 2 then [0, 1] else if n = 1 then [0] else []⟩

lemma gW_rank : ∀ x p, p ∈ gW.preds x → p < x := by
  intro x p hp
  unfold gW at hp
  by_cases h2 : x = 2
  · subst h2
    simp at hp
    rcases hp with rfl | rfl <;> omega
  · by_cases h1 : x = 1
    · subst h1
      simp at hp
      omega
    · simp [h2, h1] at hp

theorem fetch_predecessor_tree_correct_witness :
    (2 : Nat) = 2
    ∧ (∃ l : List Nat, l.Nodup ∧ (∀ x, x ∈ l ↔ TransPred gW 2 x)
        ∧ 2 = l.length)
    ∧ (∀ x, TransPred gW 2 x → x ∈ [0, 1, 0])
    ∧ ¬ TransPred gW 2 2 :=
  fetch_predecessor_tree_correct gW id gW_rank 10 2 2 2 [0, 1, 0] (by rfl)

/-- Potential of the work stack: each pending atom weighs
`(B + 1) ^ rank x` where `B` bounds every predecessor-list length. -/
def stackPotential {α : Type} (B : Nat) (rank : α → Nat)
    (stack : List α) : Nat :=
  (stack.map (fun x => (B + 1) ^ rank x)).sum

lemma preds_potential_lt {α : Type} (g : PGraph α) (B : Nat)
    (rank : α → Nat) (hrank : ∀ x p, p ∈ g.preds x → rank p < rank x)
    (hB : ∀ x, (g.preds x).length ≤ B) (n : α) :
    stackPotential B rank (g.preds n) < (B + 1) ^ rank n := by
  cases hr : rank n with
  | zero =>
    have hempty : g.preds n = [] := by
      cases hp : g.preds n with
      | nil => rfl
      | cons p ps =>
        have := hrank n p (by rw [hp]; simp)
        omega
    simp [stackPotential, hempty]
  | succ r =>
    have hterm : ∀ w ∈ (g.preds n).map (fun x => (B + 1) ^ rank x),
        w ≤ (B + 1) ^ r := by
      intro w hw
      rw [List.mem_map] at hw
      obtain ⟨p, hp, rfl⟩ := hw
      have hpr : rank p < rank n := hrank n p hp
      rw [hr] at hpr
      exact Nat.pow_le_pow_right (by omega) (by omega)
    have hsum : stackPotential B rank (g.preds n)
        ≤ ((g.preds n).map (fun x => (B + 1) ^ rank x)).length
            * (B + 1) ^ r := by
      unfold stackPotential
      have := List.sum_le_card_nsmul
        ((g.preds n).map (fun x => (B + 1) ^ rank x)) ((B + 1) ^ r) hterm
      simpa [smul_eq_mul] using this
    have hlen : ((g.preds n).map (fun x => (B + 1) ^ rank x)).length ≤ B := by
      rw [List.length_map]
      exact hB n
    have hpos : 0 < (B + 1) ^ r := Nat.pos_pow_of_pos r (by omega)
    have : stackPotential B rank (g.preds n) ≤ B * (B + 1) ^ r :=
      le_trans hsum (Nat.mul_le_mul_right _ hlen)
    have hlt : B * (B + 1) ^ r < (B + 1) * (B + 1) ^ r :=
      Nat.mul_lt_mul_of_lt_of_le (by omega) (le_refl _) hpos
    rw [pow_succ]
    calc stackPotential B rank (g.preds n) ≤ B * (B + 1) ^ r := this
      _ < (B + 1) * (B + 1) ^ r := hlt
      _ = (B + 1) ^ r * (B + 1) := Nat.mul_comm _ _

lemma fetchLoop_terminates {α : Type} [DecidableEq α] (g : PGraph α)
    (B : Nat) (rank : α → Nat)
    (hrank : ∀ x p, p ∈ g.preds x → rank p < rank x)
    (hB : ∀ x, (g.preds x).length ≤ B) :
    ∀ (fuel : Nat) (stack seen pushed : List α),
      stackPotential B rank stack < fuel →
      ∃ out, fetchLoop g fuel stack seen pushed = some out := by
  intro fuel
  induction fuel with
  | zero => intro stack seen pushed h; omega
  | succ f ih =>
    intro stack seen pushed h
    cases stack with
    | nil => exact ⟨(seen, pushed), rfl⟩
    | cons n rest =>
      simp only [fetchLoop]
      apply ih
      have h1 : stackPotential B rank (g.preds n) < (B + 1) ^ rank n :=
        preds_potential_lt g B rank hrank hB n
      have h2 : stackPotential B rank ((g.preds n).reverse ++ rest)
          = stackPotential B rank (g.preds n) + stackPotential B rank rest := by
        simp [stackPotential, List.sum_reverse]
      have h3 : stackPotential B rank (n :: rest)
          = (B + 1) ^ rank n + stackPotential B rank rest := by
        simp [stackPotential]
      rw [h3] at h
      rw [h2]
      omega

/-- The one-node graph whose only atom is its own predecessor. -/
def cyclicGraph : PGraph Nat := ⟨fun _ => [0]⟩

lemma fetchLoop_cyclic_none :
    ∀ (fuel : Nat) (stack seen pushed : List Nat), stack ≠ [] →
      fetchLoop cyclicGraph fuel stack seen pushed = none := by
  intro fuel
  induction fuel with
  | zero => intro stack seen pushed _; rfl
  | succ f ih =>
    intro stack seen pushed hne
    cases stack with
    | nil => exact absurd rfl hne
    | cons n rest =>
      simp only [fetchLoop]
      exact ih _ _ _ (by simp [cyclicGraph])

/-- C7: on an acyclic graph (topological rank, predecessor lists bounded by
`B`), the `_fetch_predecessor_tree` work stack empties after finitely many
iterations — some finite fuel makes the loop return — for every atom; and
without acyclicity this fails: on the one-atom self-loop graph the loop
never finishes, whatever the fuel. -/
theorem fetch_predecessor_tree_terminates {α : Type} [DecidableEq α]
    (g : PGraph α) (B : Nat) (rank : α → Nat)
    (hrank : ∀ x p, p ∈ g.preds x → rank p < rank x)
    (hB : ∀ x, (g.preds x).length ≤ B) (a : α) :
    (∃ fuel res, _fetch_predecessor_tree g fuel a = some res)
    ∧ (∀ fuel, _fetch_predecessor_tree cyclicGraph fuel 0 = none) := by
  constructor
  · obtain ⟨out, hout⟩ := fetchLoop_terminates g B rank hrank hB
      ((B + 1) ^ rank a + 1) [a] [] []
      (by simp [stackPotential])
    obtain ⟨seenF, pushedF⟩ := out
    exact ⟨(B + 1) ^ rank a + 1, (seenF.length, a, pushedF), by
      unfold _fetch_predecessor_tree
      rw [hout]⟩
  · intro fuel
    unfold _fetch_predecessor_tree
    rw [fetchLoop_cyclic_none fuel [0] [] [] (by simp)]

theorem fetch_predecessor_tree_terminates_witness :
    (∃ fuel res, _fetch_predecessor_tree gW fuel 2 = some res)
    ∧ (∀ fuel, _fetch_predecessor_tree cyclicGraph fuel 0 = none) :=
  fetch_predecessor_tree_terminates gW 2 id gW_rank
    (by
      intro x
      unfold gW
      by_cases h2 : x = 2
      · simp [h2]
      · by_cases h1 : x = 1 <;> simp [h2, h1])
    2

/-! ## `FailureFormatter._format_node` (taskflow/formatters.py)

The storage facade is modelled by one fetch function per method; `atom.rebind`
and `atom.optional` are constants absorbed into `fetch_mapped_args`, which is
keyed — like every other fetch here — by the atom name.  The formatted string
`Atom name attrs` is represented by the pair of the atom name and the ordered
`atom_attrs` entries (entry values are the `(value, found)` values, i.e.
`Option V`).  Exceptions not swallowed by `_cached_get` propagate. -/

structure Storage (V : Type) where
  get_atom_intention : String → Except PyExc V
  get_atom_state : String → Except PyExc V
  fetch_mapped_args : String → Except PyExc V
  get_execute_result : String → Except PyExc V

def _format_node {V : Type} (storage : Storage V) (cache : Cache V)
    (hide : List String) (atom_name : String) :
    Except PyExc ((String × List (String × Option V)) × Cache V) :=
  match _cached_get cache "intentions" atom_name
      (fun _ => storage.get_atom_intention atom_name) with
  | Except.error e => Except.error e
  | Except.ok ((intention, intention_found), cache1) =>
    let attrs1 := if intention_found then [("intention", intention)] else []
    match _cached_get cache1 "states" atom_name
        (fun _ => storage.get_atom_state atom_name) with
    | Except.error e => Except.error e
    | Except.ok ((state, state_found), cache2) =>
      let attrs2 := attrs1 ++ (if state_found then [("state", state)] else [])
      if atom_name ∈ hide then
        Except.ok ((atom_name, attrs2), cache2)
      else
        match _cached_get cache2 "requires" atom_name
            (fun _ => storage.fetch_mapped_args atom_name) with
        | Except.error e => Except.error e
        | Except.ok ((req, req_found), cache3) =>
          let attrs3 := attrs2 ++ (if req_found then [("requires", req)] else [])
          match _cached_get cache3 "provides" atom_name
              (fun _ => storage.get_execute_result atom_name) with
          | Except.error e => Except.error e
          | Except.ok ((prov, prov_found), cache4) =>
            Except.ok ((atom_name,
              attrs3 ++ (if prov_found then [("provides", prov)] else [])),
              cache4)

lemma format_node_hidden_eq {V : Type} (s : Storage V) (cache : Cache V)
    (hide : List String) (an : String) (hhide : an ∈ hide) :
    _format_node s cache hide an
      = match _cached_get cache "intentions" an
            (fun _ => s.get_atom_intention an) with
        | Except.error e => Except.error e
        | Except.ok ((intention, intention_found), cache1) =>
          match _cached_get cache1 "states" an
              (fun _ => s.get_atom_state an) with
          | Except.error e => Except.error e
          | Except.ok ((st, st_found), cache2) =>
            Except.ok ((an,
              (if intention_found then [("intention", intention)] else [])
                ++ (if st_found then [("state", st)] else [])), cache2) := by
  unfold _format_node
  simp only [hhide, ite_true]

/-- C9: for an atom listed in `hide_inputs_outputs_of`, `_format_node` emits
no `requires` and no `provides` attribute, and its result is unchanged when
`storage.fetch_mapped_args` and `storage.get_execute_result` are replaced
arbitrarily (they are never consulted): two runs differing only in the
hidden atom's stored inputs and outputs format identically. -/
theorem format_node_hidden {V : Type} (s1 s2 : Storage V) (cache : Cache V)
    (hide : List String) (an : String)
    (hhide : an ∈ hide)
    (hi : s1.get_atom_intention = s2.get_atom_intention)
    (hs : s1.get_atom_state = s2.get_atom_state) :
    _format_node s1 cache hide an = _format_node s2 cache hide an
    ∧ ∀ (nm : String) (attrs : List (String × Option V)) (c : Cache V),
        _format_node s1 cache hide an = Except.ok ((nm, attrs), c) →
        ∀ v : Option V, ("requires", v) ∉ attrs ∧ ("provides", v) ∉ attrs := by
  constructor
  · rw [format_node_hidden_eq s1 cache hide an hhide,
      format_node_hidden_eq s2 cache hide an hhide, hi, hs]
  · intro nm attrs c hok v
    rw [format_node_hidden_eq s1 cache hide an hhide] at hok
    split at hok
    · cases hok
    · split at hok
      · cases hok
      · simp only [Except.ok.injEq, Prod.mk.injEq] at hok
        obtain ⟨⟨_, hattrs⟩, _⟩ := hok
        rw [← hattrs]
        constructor <;>
          · intro hmem
            rw [List.mem_append] at hmem
            rcases hmem with hmem | hmem <;>
              (revert hmem; split <;> simp)

/-- Two storages agreeing on intentions and states but with different
stored inputs (`fetch_mapped_args`) and outputs (`get_execute_result`). -/
def sW1 : Storage Nat :=
  ⟨fun _ => Except.ok 1, fun _ => Except.ok 2,
   fun _ => Except.ok 3, fun _ => Except.ok 4⟩

def sW2 : Storage Nat :=
  ⟨fun _ => Except.ok 1, fun _ => Except.ok 2,
   fun _ => Except.error PyExc.storageFailure, fun _ => Except.ok 9⟩

theorem format_node_hidden_witness :
    _format_node sW1 ([] : Cache Nat) ["a"] "a"
        = _format_node sW2 ([] : Cache Nat) ["a"] "a"
    ∧ ∀ (nm : String) (attrs : List (String × Option Nat)) (c : Cache Nat),
        _format_node sW1 ([] : Cache Nat) ["a"] "a"
          = Except.ok ((nm, attrs), c) →
        ∀ v : Option Nat, ("requires", v) ∉ attrs ∧ ("provides", v) ∉ attrs :=
  format_node_hidden sW1 sW2 ([] : Cache Nat) ["a"] "a" (by simp) rfl rfl

/-! ## `Worker._derive_endpoints` (taskflow/engines/worker_based/worker.py)

Python classes and other objects are `PyObj`s; `reflection.is_subclass(obj,
t_task.BaseTask)` is the `isTaskSubclass` flag.  The import machinery is an
environment: `importModule` gives the `inspect.getmembers` view of a module
(name/object pairs) and `importClass` resolves a dotted path to an object
(imports themselves are assumed to succeed; the claim is not about
`ImportError`).  A tasks-list item is a string, a module object, or any
other object.  Note `pkg, cls = item.split(':')` succeeds only when the
split has exactly two parts; any other count raises `ValueError`, which the
code catches by importing the whole string as a module.  The `derived_tasks`
set is an insertion-ordered duplicate-free list. -/

inductive PyObj
  | taskCls (id : Nat)
  | plain (id : Nat)
  deriving DecidableEq, Repr

def isTaskSubclass : PyObj → Bool
  | PyObj.taskCls _ => true
  | PyObj.plain _ => false

structure ImportEnv where
  importModule : String → List (String × PyObj)
  importClass : String → PyObj

inductive TaskItem
  | str (s : String)
  | module (members : List (String × PyObj))
  | obj (o : PyObj)

structure Endpoint where
  task : PyObj
  deriving DecidableEq, Repr

/-- Python `str.split(sep)` for a one-character separator, on the character
list: splitting the empty string gives `[""]`, and each separator occurrence
ends a field. -/
def splitChars (sep : Char) : List Char → List (List Char)
  | [] => [[]]
  | c :: cs =>
    let r := splitChars sep cs
    if c = sep then [] :: r
    else
      match r with
      | [] => [[c]]
      | g :: gs => (c :: g) :: gs

/-- `item.split(':')` (Python semantics). -/
def pySplit (s : String) (sep : Char) : List String :=
  (splitChars sep s.toList).map (fun cs => String.mk cs)

/-- `derived_tasks.add(obj)`. -/
def insertTask (s : List PyObj) (o : PyObj) : List PyObj :=
  if o ∈ s then s else s ++ [o]

/-- `for name, obj in inspect.getmembers(module): if is_subclass(obj,
BaseTask): derived_tasks.add(obj)`. -/
def addModuleTasks (acc : List PyObj) (members : List (String × PyObj)) :
    List PyObj :=
  members.foldl
    (fun a m => if isTaskSubclass m.2 then insertTask a m.2 else a) acc

def deriveLoop (env : ImportEnv) :
    List TaskItem → List PyObj → Except String (List PyObj)
  | [], acc => Except.ok acc
  | item :: rest, acc =>
    match item with
    | TaskItem.str s =>
      match pySplit s ':' with
      | [pkg, cls] =>
        let obj := env.importClass (pkg ++ "." ++ cls)
        if isTaskSubclass obj then deriveLoop env rest (insertTask acc obj)
        else Except.error "TypeError: not a BaseTask subclass"
      | _ => deriveLoop env rest (addModuleTasks acc (env.importModule s))
    | TaskItem.module mems => deriveLoop env rest (addModuleTasks acc mems)
    | TaskItem.obj o =>
      if isTaskSubclass o then deriveLoop env rest (insertTask acc o)
      else Except.error "TypeError: unexpected type"

def _derive_endpoints (env : ImportEnv) (tasks : List TaskItem) :
    Except String (List Endpoint) :=
  match deriveLoop env tasks [] with
  | Except.ok derived => Except.ok (derived.map Endpoint.mk)
  | Except.error e => Except.error e

lemma mem_insertTask (s : List PyObj) (o x : PyObj) :
    x ∈ insertTask s o ↔ x ∈ s ∨ x = o := by
  unfold insertTask
  by_cases h : o ∈ s
  · simp only [if_pos h]
    constructor
    · exact Or.inl
    · rintro (hx | rfl)
      · exact hx
      · exact h
  · simp [if_neg h]

lemma nodup_insertTask (s : List PyObj) (o : PyObj) (h : s.Nodup) :
    (insertTask s o).Nodup := by
  unfold insertTask
  by_cases ho : o ∈ s
  · simpa [if_pos ho] using h
  · rw [if_neg ho]
    refine h.append (List.nodup_singleton o) ?_
    intro a ha hb
    simp only [List.mem_singleton] at hb
    subst hb
    exact ho ha

lemma mem_addModuleTasks (mems : List (String × PyObj)) :
    ∀ (acc : List PyObj) (x : PyObj),
      x ∈ addModuleTasks acc mems
        ↔ x ∈ acc ∨ (isTaskSubclass x = true ∧ x ∈ mems.map Prod.snd) := by
  induction mems with
  | nil => intro acc x; simp [addModuleTasks]
  | cons m ms ih =>
    intro acc x
    obtain ⟨n0, o0⟩ := m
    have hstep : addModuleTasks acc ((n0, o0) :: ms)
        = addModuleTasks
            (if isTaskSubclass o0 then insertTask acc o0 else acc) ms := by
      simp [addModuleTasks]
    rw [hstep]
    by_cases hm : isTaskSubclass o0 = true
    · rw [if_pos hm, ih, mem_insertTask]
      simp only [List.map_cons, List.mem_cons]
      constructor
      · rintro ((h | h) | h)
        · exact Or.inl h
        · exact Or.inr ⟨by rw [h]; exact hm, Or.inl h⟩
        · exact Or.inr ⟨h.1, Or.inr h.2⟩
      · rintro (h | ⟨hsub, h | h⟩)
        · exact Or.inl (Or.inl h)
        · exact Or.inl (Or.inr h)
        · exact Or.inr ⟨hsub, h⟩
    · rw [if_neg hm, ih]
      simp only [List.map_cons, List.mem_cons]
      constructor
      · rintro (h | ⟨hsub, h⟩)
        · exact Or.inl h
        · exact Or.inr ⟨hsub, Or.inr h⟩
      · rintro (h | ⟨hsub, h | h⟩)
        · exact Or.inl h
        · exact absurd (by rw [← h]; exact hsub) hm
        · exact Or.inr ⟨hsub, h⟩

lemma nodup_addModuleTasks (mems : List (String × PyObj)) :
    ∀ acc : List PyObj, acc.Nodup → (addModuleTasks acc mems).Nodup := by
  induction mems with
  | nil => intro acc h; exact h
  | cons m ms ih =>
    intro acc h
    obtain ⟨n0, o0⟩ := m
    have hstep : addModuleTasks acc ((n0, o0) :: ms)
        = addModuleTasks
            (if isTaskSubclass o0 then insertTask acc o0 else acc) ms := by
      simp [addModuleTasks]
    rw [hstep]
    by_cases hm : isTaskSubclass o0 = true
    · rw [if_pos hm]
      exact ih _ (nodup_insertTask acc o0 h)
    · rw [if_neg hm]
      exact ih _ h

lemma deriveLoop_nodup (env : ImportEnv) :
    ∀ (tasks : List TaskItem) (acc res : List PyObj), acc.Nodup →
      deriveLoop env tasks acc = Except.ok res → res.Nodup := by
  intro tasks
  induction tasks with
  | nil =>
    intro acc res hnd h
    simp only [deriveLoop, Except.ok.injEq] at h
    rw [← h]
    exact hnd
  | cons item rest ih =>
    intro acc res hnd h
    cases item with
    | str s =>
      simp only [deriveLoop] at h
      split at h
      · split at h
        · exact ih _ _ (nodup_insertTask _ _ hnd) h
        · cases h
      · exact ih _ _ (nodup_addModuleTasks _ _ hnd) h
    | module mems =>
      simp only [deriveLoop] at h
      exact ih _ _ (nodup_addModuleTasks _ _ hnd) h
    | obj o =>
      simp only [deriveLoop] at h
      split at h
      · exact ih _ _ (nodup_insertTask _ _ hnd) h
      · cases h

/-- An environment in which every class import resolves to an object that is
not a `BaseTask` subclass and every module is empty. -/
def env0 : ImportEnv := ⟨fun _ => [], fun _ => PyObj.plain 0⟩

/-- C4 counterexample: the claim says every string item containing a colon
is imported as a class and raises `TypeError` unless that class is a
`BaseTask` subclass.  The string `a:b:c` contains a colon and every class
resolution in `env0` yields a non-subclass, so the claim demands a `TypeError`
— but the code's tuple unpacking `pkg, cls = item.split(':')` raises
`ValueError` on the three-part split, which is caught and the whole string
is imported as a module instead, so the call succeeds. -/
theorem derive_endpoints_multicolon_cex :
    ':' ∈ "a:b:c".toList
    ∧ isTaskSubclass (env0.importClass "a.b:c") = false
    ∧ isTaskSubclass (env0.importClass "a.b.c") = false
    ∧ _derive_endpoints env0 [TaskItem.str "a:b:c"] = Except.ok [] :=
  ⟨by decide, rfl, rfl, by rfl⟩

/-- C4 (amended): `_derive_endpoints` yields one `Endpoint` per distinct
derived task class: a string item whose colon split has exactly two parts
is imported as a class (the parts joined by a dot) and raises `TypeError`
unless it is a `BaseTask` subclass; any other string item (no colon, or
several colons) is imported as a module; a module item contributes exactly
its members that are `BaseTask` subclasses; an item that is itself a
`BaseTask` subclass contributes itself; any other item raises `TypeError`;
and the result list never holds duplicates, so a task class reachable
through several items yields only one `Endpoint`. -/
theorem derive_endpoints_amended (env : ImportEnv) :
    (∀ s pkg cls : String, pySplit s ':' = [pkg, cls] →
      _derive_endpoints env [TaskItem.str s]
        = (if isTaskSubclass (env.importClass (pkg ++ "." ++ cls))
           then Except.ok [Endpoint.mk (env.importClass (pkg ++ "." ++ cls))]
           else Except.error "TypeError: not a BaseTask subclass"))
    ∧ (∀ s : String, (pySplit s ':').length ≠ 2 →
        _derive_endpoints env [TaskItem.str s]
          = Except.ok
              ((addModuleTasks [] (env.importModule s)).map Endpoint.mk))
    ∧ (∀ mems, _derive_endpoints env [TaskItem.module mems]
        = Except.ok ((addModuleTasks [] mems).map Endpoint.mk))
    ∧ (∀ mems x, x ∈ addModuleTasks [] mems
        ↔ isTaskSubclass x = true ∧ x ∈ mems.map Prod.snd)
    ∧ (∀ o, isTaskSubclass o = true →
        _derive_endpoints env [TaskItem.obj o] = Except.ok [Endpoint.mk o])
    ∧ (∀ o, isTaskSubclass o = false →
        _derive_endpoints env [TaskItem.obj o]
          = Except.error "TypeError: unexpected type")
    ∧ (∀ (tasks : List TaskItem) (res : List Endpoint),
        _derive_endpoints env tasks = Except.ok res →
        (res.map Endpoint.task).Nodup) := by
  refine ⟨?_, ?_, ?_, ?_, ?_, ?_, ?_⟩
  · intro s pkg cls hsp
    unfold _derive_endpoints
    simp only [deriveLoop, hsp]
    by_cases hc : isTaskSubclass (env.importClass (pkg ++ "." ++ cls)) = true
    · simp [hc, insertTask]
    · simp [hc]
  · intro s hlen
    unfold _derive_endpoints
    simp only [deriveLoop]
    cases hsp : pySplit s ':' with
    | nil => rfl
    | cons a t1 =>
      cases t1 with
      | nil => rfl
      | cons b t2 =>
        cases t2 with
        | nil =>
          exfalso
          apply hlen
          rw [hsp]
          rfl
        | cons c t3 => rfl
  · intro mems
    simp [_derive_endpoints, deriveLoop]
  · intro mems x
    rw [mem_addModuleTasks]
    simp
  · intro o ho
    simp [_derive_endpoints, deriveLoop, ho, insertTask]
  · intro o ho
    simp [_derive_endpoints, deriveLoop, ho]
  · intro tasks res h
    unfold _derive_endpoints at h
    split at h
    · rename_i derived heq
      simp only [Except.ok.injEq] at h
      rw [← h, List.map_map]
      have hid : Endpoint.task ∘ Endpoint.mk = id := rfl
      rw [hid, List.map_id]
      exact deriveLoop_nodup env tasks [] derived List.nodup_nil heq
    · cases h

/-- An environment where the dotted path `a.b` resolves to a task class. -/
def envW : ImportEnv :=
  ⟨fun _ => [("T", PyObj.taskCls 1), ("x", PyObj.plain 2)],
   fun s => if s = "a.b" then PyObj.taskCls 0 else PyObj.plain 0⟩

theorem derive_endpoints_amended_witness :
    _derive_endpoints envW [TaskItem.str "a:b"]
      = (if isTaskSubclass (envW.importClass ("a" ++ "." ++ "b"))
         then Except.ok [Endpoint.mk (envW.importClass ("a" ++ "." ++ "b"))]
         else Except.error "TypeError: not a BaseTask subclass") :=
  (derive_endpoints_amended envW).1 "a:b" "a" "b" (by decide)

/-! ## The persistence-example scenario (taskflow/examples/persistence_example.py)

`HiTask` and `ByeTask` come from the example file; the serial engine that
runs them is not part of the excerpt (only `taskflow.engines.load(...).run()`
is called), so it is modelled from the spec below. -/

inductive AtomState
  | PENDING
  | RUNNING
  | SUCCESS
  | FAILURE
  | REVERTING
  | REVERTED
  deriving DecidableEq, Repr

/-- A task: its name, the outcome of `execute` (an uncaught exception is an
`Except.error` carrying the exception message). -/
structure TaskDef where
  name : String
  execute : Except String Unit

/-- `HiTask` from the example: `execute` prints and returns; `revert`
prints and returns. -/
def HiTask : TaskDef := ⟨"HiTask", Except.ok ()⟩

/-- `ByeTask(blowup)` from the example: `execute` raises `Exception("Fail!")`
when `blowup` is set, otherwise prints and returns. -/
def ByeTask (blowup : Bool) : TaskDef :=
  ⟨"ByeTask", if blowup then Except.error "Fail!" else Except.ok ()⟩

/-- `make_flow` from the example: the linear flow `[HiTask, ByeTask(blowup)]`. -/
def make_flow (blowup : Bool) : List TaskDef := [HiTask, ByeTask blowup]

structure EngineRun where
  outcome : Except String Unit
  finalStates : List (String × AtomState)
  revertCounts : List (String × Nat)
  trace : List (String × AtomState)

/-- Modelled from the spec: the forward pass of the serial engine over a
linear flow (the engine under `taskflow/engines` is not in the excerpt).
Each atom goes PENDING→RUNNING, then SUCCESS, or FAILURE on its first
failure, which stops the forward pass; returns the succeeded atoms in
execution order, the transition trace, the failure (name, message) if any,
and the atoms never started. -/
def execPhase : List TaskDef →
    List TaskDef × List (String × AtomState)
      × Option (String × String) × List TaskDef
  | [] => ([], [], none, [])
  | t :: rest =>
    match t.execute with
    | Except.ok _ =>
      let (succ, tr, f, rem) := execPhase rest
      (t :: succ,
        (t.name, AtomState.RUNNING) :: (t.name, AtomState.SUCCESS) :: tr,
        f, rem)
    | Except.error e =>
      ([], [(t.name, AtomState.RUNNING), (t.name, AtomState.FAILURE)],
        some (t.name, e), rest)

/-- Modelled from the spec: the compensation pass — already-successful atoms
are reverted in reverse execution order (the input here is the reversed
succeeded list), each SUCCESS→REVERTING→REVERTED, invoking each revert
exactly once. -/
def revertPhase : List TaskDef →
    List (String × AtomState) × List (String × Nat)
  | [] => ([], [])
  | t :: rest =>
    let (tr, cnt) := revertPhase rest
    ((t.name, AtomState.REVERTING) :: (t.name, AtomState.REVERTED) :: tr,
      (t.name, 1) :: cnt)

/-- Modelled from the spec: `engines.load(flo, engine_conf=serial).run()` for
a linear flow.  On success all atoms end SUCCESS and `run()` returns; on a
failure the succeeded atoms are reverted in reverse order and `run()` raises
wrapping the captured Failure. -/
def runLinear (atoms : List TaskDef) : EngineRun :=
  let (succ, trE, fOpt, rem) := execPhase atoms
  match fOpt with
  | none =>
    ⟨Except.ok (), succ.map (fun t => (t.name, AtomState.SUCCESS)), [], trE⟩
  | some (fname, e) =>
    let (trR, cnts) := revertPhase succ.reverse
    ⟨Except.error e,
      succ.map (fun t => (t.name, AtomState.REVERTED))
        ++ [(fname, AtomState.FAILURE)]
        ++ rem.map (fun t => (t.name, AtomState.PENDING)),
      cnts, trE ++ trR⟩

/-- C3: running the linear flow `[HiTask, ByeTask(blowup=True)]`: HiTask
reaches SUCCESS and only afterwards REVERTED (visible in the transition
trace), ByeTask ends in FAILURE, `run()` raises wrapping ByeTask's
Failure (`Fail!`), and HiTask's revert runs exactly once. -/
theorem persistence_example_blowup_run :
    (runLinear (make_flow true)).trace
      = [("HiTask", AtomState.RUNNING), ("HiTask", AtomState.SUCCESS),
         ("ByeTask", AtomState.RUNNING), ("ByeTask", AtomState.FAILURE),
         ("HiTask", AtomState.REVERTING), ("HiTask", AtomState.REVERTED)]
    ∧ (runLinear (make_flow true)).finalStates
      = [("HiTask", AtomState.REVERTED), ("ByeTask", AtomState.FAILURE)]
    ∧ (runLinear (make_flow true)).outcome = Except.error "Fail!"
    ∧ (runLinear (make_flow true)).revertCounts = [("HiTask", 1)] :=
  ⟨rfl, rfl, rfl, rfl⟩

end Taskflow
